import Mathlib

/-! Verification of `kube/charts/charts.go`.

A shallow embedding of the `charts` package (file `kube/charts/charts.go`) and the
properties of its volume-name normalization, its path derivation and its release
operations.

Conventions of the embedding.

* A Go `string` is a `List Char`.  The functions used here only compare against the
  ASCII characters `_`, `-`, `.` and `/`; no byte of a multi-byte UTF-8 sequence equals
  an ASCII byte, so working on characters and working on bytes agree.
* A Go `map[string]T` is a `Finmap`: finitely many keys, each bound once, no order.
* `for k, v := range m` visits the entries in an unspecified order.  The order is an
  explicit argument (a list of keys).  Visiting a key that is not bound at that moment
  produces nothing, which is how Go treats entries removed before they are reached;
  entries created during the loop may or may not occur in the list.
* A Go `error` is an `Option`: `none` is `nil`.  A Go pointer result is an `Option`.
* Functions of other packages (`kubernetes`, `helm`, `chartutil`) are fields of the
  `sdk` value; every call to them is recorded, in order, in a list of `Call`s.
-/

/-- A Go string. -/
abbrev GoString := List Char

/-- A Go `error`; `none` is `nil`. -/
abbrev error (E : Type) := Option E

/-! ## Package `strings` (Go standard library) -/

namespace strings

/-- Go `strings.Index`: position of the first occurrence of `substr` in `s`. -/
def Index : GoString → GoString → Option Nat
  | [], substr => if substr = [] then some 0 else none
  | c :: cs, substr =>
    if substr.isPrefixOf (c :: cs) then some 0 else (Index cs substr).map Nat.succ

/-- Go `strings.Contains`. -/
def Contains (s substr : GoString) : Bool :=
  (Index s substr).isSome

/-- The scan of `strings.Replace` for a non-empty `old`: `skip` counts the characters of
the current match that are still to be passed over. -/
def replaceFrom (old new : GoString) : Nat → GoString → GoString
  | _, [] => []
  | skip + 1, _ :: cs => replaceFrom old new skip cs
  | 0, c :: cs =>
    if old.isPrefixOf (c :: cs) then new ++ replaceFrom old new (old.length - 1) cs
    else c :: replaceFrom old new 0 cs

/-- Go `strings.ReplaceAll`: every non-overlapping occurrence of `old`, from the left, is
replaced by `new`; an empty `old` matches before every character and at the end. -/
def ReplaceAll (s old new : GoString) : GoString :=
  if old = [] then new ++ s.flatMap (fun c => c :: new) else replaceFrom old new 0 s

/-- The loop of `strings.genSplit` for a non-empty separator: at most `n` cuts. -/
def splitLoop (sep : GoString) : Nat → GoString → List GoString
  | 0, s => [s]
  | n + 1, s =>
    match Index s sep with
    | none => [s]
    | some m => s.take m :: splitLoop sep n (s.drop (m + sep.length))

/-- Go `strings.SplitN` for a non-empty separator and `n ≥ 0`: at most `n` pieces, the
last one holding the unsplit remainder. -/
def SplitN (s sep : GoString) (n : Nat) : List GoString :=
  if n = 0 then [] else splitLoop sep (min n (s.length + 1) - 1) s

end strings

/-! ## Package `path/filepath` (Go standard library, Unix: separator `/`, no volume) -/

namespace filepath

/-- The backtracking loop of the `..` case of `Clean`:
`for out.w > dotdot && !os.IsPathSeparator(out.index(out.w)) { out.w-- }`. -/
def backtrack (buf : GoString) (dotdot : Nat) : Nat → Nat
  | 0 => 0
  | w + 1 =>
    if w + 1 > dotdot ∧ buf.getD (w + 1) '/' ≠ '/' then backtrack buf dotdot w else w + 1

/-- The main loop `for r < n { switch ... }` of `Clean`.  `r` is the index of the next
byte of `path` to process, `buf` the output written so far (`out.w = buf.length`),
`dotdot` the index where `..` must stop.  Every turn advances `r`, so `path.length`
turns are enough. -/
def cleanLoop (path : GoString) (rooted : Bool) : Nat → Nat → GoString → Nat → GoString
  | 0, _, buf, _ => buf
  | fuel + 1, r, buf, dotdot =>
    if r < path.length then
      if path.getD r '/' = '/' then
        -- empty path element
        cleanLoop path rooted fuel (r + 1) buf dotdot
      else if path.getD r '/' = '.' ∧ (r + 1 = path.length ∨ path.getD (r + 1) '/' = '/') then
        -- . element
        cleanLoop path rooted fuel (r + 1) buf dotdot
      else if path.getD r '/' = '.' ∧ path.getD (r + 1) '/' = '.' ∧
          (r + 2 = path.length ∨ path.getD (r + 2) '/' = '/') then
        -- .. element: remove to last separator
        if buf.length > dotdot then
          cleanLoop path rooted fuel (r + 2)
            (buf.take (backtrack buf dotdot (buf.length - 1))) dotdot
        else if rooted = false then
          let buf1 := (if buf.length > 0 then buf ++ ['/'] else buf) ++ ['.', '.']
          cleanLoop path rooted fuel (r + 2) buf1 buf1.length
        else
          cleanLoop path rooted fuel (r + 2) buf dotdot
      else
        -- real path element: add slash if needed, copy element
        let buf1 :=
          if (rooted = true ∧ buf.length ≠ 1) ∨ (rooted = false ∧ buf.length ≠ 0)
          then buf ++ ['/'] else buf
        let element := (path.drop r).takeWhile (fun c => c ≠ '/')
        cleanLoop path rooted fuel (r + element.length) (buf1 ++ element) dotdot
    else buf

/-- Go `filepath.Clean` on Unix. -/
def Clean (path : GoString) : GoString :=
  if path = [] then ['.']
  else
    let rooted : Bool := path.getD 0 '.' = '/'
    let out :=
      if rooted then cleanLoop path rooted path.length 1 ['/'] 1
      else cleanLoop path rooted path.length 0 [] 0
    -- Turn empty string into "."
    if out.length = 0 then ['.'] else out

/-- The scan of `Dir` for the last separator:
`i := len(path) - 1; for i >= 0 && !os.IsPathSeparator(path[i]) { i-- }`; the result is
`i + 1`. -/
def dirEnd (path : GoString) : Nat → Nat
  | 0 => 0
  | i + 1 => if path.getD i '/' ≠ '/' then dirEnd path i else i + 1

/-- Go `filepath.Dir` on Unix: all but the last element of `path`, cleaned. -/
def Dir (path : GoString) : GoString :=
  Clean (path.take (dirEnd path path.length))

end filepath

/-! ## Package `types` (compose-go): the part of a project the package reads -/

namespace types

/-- Go `types.Volumes`, a `map[string]VolumeConfig`; `V` is `VolumeConfig`. -/
abbrev Volumes (V : Type) := Finmap (fun _ : GoString => V)

/-- Go `types.Project`: the name, the volumes, and all remaining fields as `rest`. -/
structure Project (V R : Type) where
  Name : GoString
  Volumes : types.Volumes V
  rest : R
  deriving DecidableEq

end types

namespace charts

/-- A call to a function that `charts.go` uses but does not define. -/
inductive Call (V R O C : Type) where
  | MapToKubernetesObjects (project : types.Project V R)
  | ConvertToChart (name : GoString) (objects : O)
  | SaveDir (chart : Option C) (dest : GoString)
  | InstallChart (name : GoString) (chart : Option C)
  | Uninstall (name : GoString)
  | ListReleases
  deriving DecidableEq

/-- Whether a call is a call of the release manager's `InstallChart`. -/
def Call.isInstallChart {V R O C : Type} : Call V R O C → Bool
  | Call.InstallChart _ _ => true
  | _ => false

/-- Go `helm.HelmActions`: what each method returns. -/
structure HelmActions (C S E : Type) where
  InstallChart : GoString → Option C → error E
  Uninstall : GoString → error E
  ListReleases : List S × error E

/-- Go `sdk`, together with the package-level functions the methods call:
`kubernetes.MapToKubernetesObjects`, `helm.ConvertToChart` and `chartutil.SaveDir`.
`O` is the type of the mapped objects, `C` of charts, `S` of `compose.Stack`. -/
structure sdk (V R O C S E : Type) where
  h : HelmActions C S E
  MapToKubernetesObjects : types.Project V R → O × error E
  ConvertToChart : GoString → O → Option C × error E
  SaveDir : Option C → GoString → error E

/-- What a method taking `project *types.Project` leaves behind: the project as mutated
in place, the calls made, and the returned values. -/
structure Outcome (V R O C α : Type) where
  project : types.Project V R
  calls : List (Call V R O C)
  ret : α
  deriving DecidableEq

/-- The local `volumeName` of `GetChartInMemory` (line 96) for the key `k`. -/
abbrev volumeName (k : GoString) : GoString :=
  strings.ReplaceAll k ['_'] ['-']

/-- The body of the loop of `GetChartInMemory` (lines 96-100) at key `k`; nothing
happens when `k` is not bound at that moment. -/
def rangeBody {V : Type} (m : types.Volumes V) (k : GoString) : types.Volumes V :=
  match m.lookup k with
  | none => m
  | some v =>
    if volumeName k ≠ k then (m.insert (volumeName k) v).erase k else m

/-- The loop `for k, v := range project.Volumes` of `GetChartInMemory` (lines 95-101),
visiting the keys in the given order. -/
def rangeVolumes {V : Type} (order : List GoString) (m : types.Volumes V) :
    types.Volumes V :=
  order.foldl rangeBody m

/-- Go `sdk.GetChartInMemory`. -/
def sdk.GetChartInMemory {V R O C S E : Type} (s : sdk V R O C S E) (order : List GoString)
    (project : types.Project V R) : Outcome V R O C (Option C × error E) :=
  let project : types.Project V R :=
    { project with Volumes := rangeVolumes order project.Volumes }
  match s.MapToKubernetesObjects project with
  | (_, some err) => ⟨project, [Call.MapToKubernetesObjects project], (none, some err)⟩
  | (objects, none) =>
    ⟨project,
      [Call.MapToKubernetesObjects project, Call.ConvertToChart project.Name objects],
      s.ConvertToChart project.Name objects⟩

/-- Go `sdk.Install`. -/
def sdk.Install {V R O C S E : Type} (s : sdk V R O C S E) (order : List GoString)
    (project : types.Project V R) : Outcome V R O C (error E) :=
  let g := s.GetChartInMemory order project
  match g.ret with
  | (_, some err) => ⟨g.project, g.calls, some err⟩
  | (chart, none) =>
    ⟨g.project, g.calls ++ [Call.InstallChart g.project.Name chart],
      s.h.InstallChart g.project.Name chart⟩

/-- Go `sdk.Uninstall`. -/
def sdk.Uninstall {V R O C S E : Type} (s : sdk V R O C S E) (projectName : GoString) :
    List (Call V R O C) × error E :=
  ([Call.Uninstall projectName], s.h.Uninstall projectName)

/-- Go `sdk.SaveChart`. -/
def sdk.SaveChart {V R O C S E : Type} (s : sdk V R O C S E) (order : List GoString)
    (project : types.Project V R) (dest : GoString) : Outcome V R O C (error E) :=
  let g := s.GetChartInMemory order project
  match g.ret with
  | (_, some err) => ⟨g.project, g.calls, some err⟩
  | (chart, none) => ⟨g.project, g.calls ++ [Call.SaveDir chart dest], s.SaveDir chart dest⟩

/-- The value of `dirname` on line 125 of `GenerateChart`, after lines 119-124: cut at the
first period when there is one, then `filepath.Dir`.  (`splits[0]` exists: `SplitN`
returns at least one piece.) -/
def sdk.GenerateChart.dirname (dirname : GoString) : GoString :=
  let dirname1 :=
    if strings.Contains dirname ['.'] then
      let splits := strings.SplitN dirname ['.'] 2
      splits.headD []
    else dirname
  filepath.Dir dirname1

/-- Go `sdk.GenerateChart`. -/
def sdk.GenerateChart {V R O C S E : Type} (s : sdk V R O C S E) (order : List GoString)
    (project : types.Project V R) (dirname : GoString) : Outcome V R O C (error E) :=
  s.SaveChart order project (sdk.GenerateChart.dirname dirname)

/-- Go `sdk.List`. -/
def sdk.List {V R O C S E : Type} (s : sdk V R O C S E) (_projectName : GoString) :
    List (Call V R O C) × (List S × error E) :=
  ([Call.ListReleases], s.h.ListReleases)

/-! ### Concrete values used to evaluate the definitions -/

/-- Collaborators that always succeed: the mapped objects are the project's volumes, the
chart is the pair of the name and the objects, and the release manager knows the
releases `web` and `db`. -/
def okSdk : sdk Nat Unit (types.Volumes Nat) (GoString × types.Volumes Nat) GoString Nat where
  h := ⟨fun _ _ => none, fun _ => none, (["web".toList, "db".toList], none)⟩
  MapToKubernetesObjects := fun p => (p.Volumes, none)
  ConvertToChart := fun name objects => (some (name, objects), none)
  SaveDir := fun _ _ => none

/-- Collaborators whose object mapper rejects every project with error `22`. -/
def rejectingSdk :
    sdk Nat Unit (types.Volumes Nat) (GoString × types.Volumes Nat) GoString Nat where
  h := ⟨fun _ _ => none, fun _ => none, ([], none)⟩
  MapToKubernetesObjects := fun p => (p.Volumes, some 22)
  ConvertToChart := fun name objects => (some (name, objects), none)
  SaveDir := fun _ _ => none

/-- Project `web` with the single volume `data_store`. -/
def web : types.Project Nat Unit :=
  ⟨"web".toList, Finmap.singleton "data_store".toList 7, ()⟩

/-- Project whose volume `a_b` is rewritten to the name of its other volume `a-b`. -/
def shadowed : types.Project Nat Unit :=
  ⟨"web".toList, (Finmap.singleton "a_b".toList 1).insert "a-b".toList 2, ()⟩

/-- Project with two volumes, `a_b-c` and `a-b_c`, that are both rewritten to `a-b-c`. -/
def clashing : types.Project Nat Unit :=
  ⟨"web".toList, (Finmap.singleton "a_b-c".toList 1).insert "a-b_c".toList 2, ()⟩

end charts

/-! ## Facts about the library functions at the arguments the package uses -/

namespace strings

theorem replaceFrom_underscore (s : GoString) :
    replaceFrom ['_'] ['-'] 0 s = s.map (fun c => if c = '_' then '-' else c) := by
  induction s with
  | nil => rfl
  | cons c cs ih =>
    by_cases hc : c = '_'
    · subst hc
      simp [replaceFrom, ih]
    · have hc2 : ¬ '_' = c := fun h => hc h.symm
      simp [replaceFrom, ih, hc, hc2]

theorem ReplaceAll_underscore (s : GoString) :
    ReplaceAll s ['_'] ['-'] = s.map (fun c => if c = '_' then '-' else c) := by
  simp [ReplaceAll, replaceFrom_underscore]

theorem Index_period_isSome (s : GoString) : (Index s ['.']).isSome = true ↔ '.' ∈ s := by
  induction s with
  | nil => simp [Index]
  | cons c cs ih =>
    by_cases hc : c = '.'
    · subst hc
      simp [Index]
    · have hc2 : ¬ '.' = c := fun h => hc h.symm
      simp [Index, hc, hc2, ih]

theorem Contains_period (s : GoString) : Contains s ['.'] = true ↔ '.' ∈ s := by
  simp [Contains, Index_period_isSome]

theorem Index_period_take (s : GoString) (m : Nat) (h : Index s ['.'] = some m) :
    s.take m = s.takeWhile (fun c => c ≠ '.') := by
  induction s generalizing m with
  | nil => simp [Index] at h
  | cons c cs ih =>
    by_cases hc : c = '.'
    · subst hc
      simp [Index] at h
      subst h
      simp
    · have hc2 : ¬ '.' = c := fun h => hc h.symm
      simp [Index, hc2] at h
      obtain ⟨a, ha, rfl⟩ := h
      simp [List.takeWhile_cons, hc, ih a ha]

theorem SplitN_period_head (s : GoString) (h : '.' ∈ s) :
    (SplitN s ['.'] 2).headD [] = s.takeWhile (fun c => c ≠ '.') := by
  have hlen : 0 < s.length := List.length_pos_of_mem h
  have hmin : min 2 (s.length + 1) - 1 = 1 := by omega
  have hsome := (Index_period_isSome s).mpr h
  obtain ⟨m, hm⟩ := Option.isSome_iff_exists.mp hsome
  simp [SplitN, hmin, splitLoop, hm, Index_period_take s m hm]

end strings

/-! ## The normalization loop -/

namespace charts

theorem volumeName_eq_map (k : GoString) :
    volumeName k = k.map (fun c => if c = '_' then '-' else c) :=
  strings.ReplaceAll_underscore k

theorem volumeName_no_underscore (k : GoString) : '_' ∉ volumeName k := by
  rw [volumeName_eq_map]
  intro h
  obtain ⟨c, _, hc⟩ := List.mem_map.mp h
  by_cases hc2 : c = '_'
  · rw [if_pos hc2] at hc
    exact absurd hc (by decide)
  · rw [if_neg hc2] at hc
    exact hc2 hc

theorem volumeName_eq_self_iff (k : GoString) : volumeName k = k ↔ '_' ∉ k := by
  constructor
  · intro h hk
    have hno := volumeName_no_underscore k
    rw [h] at hno
    exact hno hk
  · intro h
    rw [volumeName_eq_map]
    induction k with
    | nil => rfl
    | cons c cs ih =>
      have hc : c ≠ '_' := fun e => h (e ▸ List.mem_cons_self _ _)
      have hcs : '_' ∉ cs := fun e => h (List.mem_cons_of_mem _ e)
      simp [hc, ih hcs]

theorem volumeName_ne_of_underscore {k j : GoString} (hj : '_' ∈ j) : volumeName k ≠ j :=
  fun e => volumeName_no_underscore k (e ▸ hj)

theorem rangeBody_absent {V : Type} (m : types.Volumes V) (k : GoString) (h : k ∉ m) :
    rangeBody m k = m := by
  have hl : m.lookup k = none := Finmap.lookup_eq_none.mpr h
  simp [rangeBody, hl]

theorem rangeBody_clean {V : Type} (m : types.Volumes V) (k : GoString) (h : '_' ∉ k) :
    rangeBody m k = m := by
  have hk : volumeName k = k := (volumeName_eq_self_iff k).mpr h
  unfold rangeBody
  cases m.lookup k with
  | none => rfl
  | some v => simp [hk]

theorem rangeBody_move {V : Type} (m : types.Volumes V) (k : GoString) (v : V)
    (hv : m.lookup k = some v) (hk : '_' ∈ k) :
    rangeBody m k = (m.insert (volumeName k) v).erase k := by
  have hne : volumeName k ≠ k := fun e => (volumeName_eq_self_iff k).mp e hk
  simp [rangeBody, hv, hne]

/-- One turn of the loop: either nothing changes, or a bound key with an underscore is
moved to its rewritten name. -/
theorem rangeBody_cases {V : Type} (m : types.Volumes V) (k : GoString) :
    (rangeBody m k = m ∧ (k ∉ m ∨ '_' ∉ k)) ∨
    ∃ v, m.lookup k = some v ∧ '_' ∈ k ∧
      rangeBody m k = (m.insert (volumeName k) v).erase k := by
  by_cases hk : '_' ∈ k
  · cases hv : m.lookup k with
    | none =>
      have hnot : k ∉ m := Finmap.lookup_eq_none.mp hv
      exact Or.inl ⟨rangeBody_absent m k hnot, Or.inl hnot⟩
    | some v => exact Or.inr ⟨v, rfl, hk, rangeBody_move m k v hv hk⟩
  · exact Or.inl ⟨rangeBody_clean m k hk, Or.inr hk⟩

/-- A key with an underscore that is bound after a turn was bound before it and is not
the key visited. -/
theorem mem_rangeBody_underscore {V : Type} (m : types.Volumes V) (k j : GoString)
    (hj : '_' ∈ j) (h : j ∈ rangeBody m k) : j ∈ m ∧ j ≠ k := by
  rcases rangeBody_cases m k with ⟨he, hno⟩ | ⟨v, _, _, he⟩
  · rw [he] at h
    refine ⟨h, ?_⟩
    rintro rfl
    rcases hno with hno | hno
    · exact hno h
    · exact hno hj
  · rw [he, Finmap.mem_erase, Finmap.mem_insert] at h
    refine ⟨?_, h.1⟩
    rcases h.2 with e | hm
    · exact absurd e.symm (volumeName_ne_of_underscore hj)
    · exact hm

/-- A turn at `k` leaves the binding of every other key with an underscore alone. -/
theorem lookup_rangeBody_underscore {V : Type} (m : types.Volumes V) (k j : GoString)
    (hj : '_' ∈ j) (hne : j ≠ k) : (rangeBody m k).lookup j = m.lookup j := by
  rcases rangeBody_cases m k with ⟨he, _⟩ | ⟨v, _, _, he⟩
  · rw [he]
  · have h2 : j ≠ volumeName k := fun e => volumeName_ne_of_underscore hj e.symm
    rw [he, Finmap.lookup_erase_ne hne, Finmap.lookup_insert_of_ne _ h2]

/-- A turn at `k` leaves the binding of `j` alone unless `k` is rewritten to `j`. -/
theorem lookup_rangeBody_target {V : Type} (m : types.Volumes V) (k j : GoString)
    (hj : '_' ∉ j) (hk : k ∈ m → '_' ∈ k → volumeName k ≠ j) :
    (rangeBody m k).lookup j = m.lookup j := by
  rcases rangeBody_cases m k with ⟨he, _⟩ | ⟨v, hv, hu, he⟩
  · rw [he]
  · have hmem : k ∈ m := Finmap.mem_of_lookup_eq_some hv
    have h1 : j ≠ k := fun e => hj (e ▸ hu)
    have h2 : j ≠ volumeName k := fun e => hk hmem hu e.symm
    rw [he, Finmap.lookup_erase_ne h1, Finmap.lookup_insert_of_ne _ h2]

theorem rangeVolumes_nil {V : Type} (m : types.Volumes V) : rangeVolumes [] m = m := rfl

theorem rangeVolumes_cons {V : Type} (k : GoString) (order : List GoString)
    (m : types.Volumes V) :
    rangeVolumes (k :: order) m = rangeVolumes order (rangeBody m k) := rfl

/-- No key with an underscore survives a loop that visits every such key. -/
theorem rangeVolumes_no_underscore {V : Type} (order : List GoString) (m : types.Volumes V)
    (hcover : ∀ j ∈ m, '_' ∈ j → j ∈ order) :
    ∀ j ∈ rangeVolumes order m, '_' ∉ j := by
  induction order generalizing m with
  | nil =>
    intro j hj hu
    exact absurd (hcover j hj hu) (List.not_mem_nil j)
  | cons k order ih =>
    rw [rangeVolumes_cons]
    apply ih
    intro j hj hu
    obtain ⟨hm, hne⟩ := mem_rangeBody_underscore m k j hu hj
    rcases List.mem_cons.mp (hcover j hm hu) with e | h
    · exact absurd e hne
    · exact h

/-- The loop never binds a key with an underscore. -/
theorem rangeVolumes_not_mem {V : Type} (order : List GoString) (m : types.Volumes V)
    (j : GoString) (hu : '_' ∈ j) (hj : j ∉ m) : j ∉ rangeVolumes order m := by
  induction order generalizing m with
  | nil => exact hj
  | cons k order ih =>
    rw [rangeVolumes_cons]
    apply ih
    intro h
    exact hj (mem_rangeBody_underscore m k j hu h).1

/-- A map without underscores in its keys is left as it is, whatever keys are visited. -/
theorem rangeVolumes_of_clean {V : Type} (order : List GoString) (m : types.Volumes V)
    (h : ∀ j ∈ m, '_' ∉ j) : rangeVolumes order m = m := by
  induction order with
  | nil => rfl
  | cons k order ih =>
    rw [rangeVolumes_cons]
    have hb : rangeBody m k = m := by
      by_cases hk : k ∈ m
      · exact rangeBody_clean m k (h k hk)
      · exact rangeBody_absent m k hk
    rw [hb, ih]

/-- A key without underscore to which no bound key is rewritten keeps its binding. -/
theorem rangeVolumes_lookup_target {V : Type} (order : List GoString) (m : types.Volumes V)
    (j : GoString) (hj : '_' ∉ j) (hno : ∀ k ∈ m, '_' ∈ k → volumeName k ≠ j) :
    (rangeVolumes order m).lookup j = m.lookup j := by
  induction order generalizing m with
  | nil => rfl
  | cons k order ih =>
    rw [rangeVolumes_cons, ih, lookup_rangeBody_target m k j hj (hno k)]
    intro k2 hk2 hu
    exact hno k2 (mem_rangeBody_underscore m k k2 hu hk2).1 hu

/-- A visited key with an underscore that is the only such key rewritten to its new name
ends up under that name with the value it had. -/
theorem rangeVolumes_lookup_moved {V : Type} (order : List GoString) (m : types.Volumes V)
    (k : GoString) (v : V) (hu : '_' ∈ k) (hv : m.lookup k = some v) (hk : k ∈ order)
    (huniq : ∀ k2 ∈ m, '_' ∈ k2 → volumeName k2 = volumeName k → k2 = k) :
    (rangeVolumes order m).lookup (volumeName k) = some v := by
  induction order generalizing m with
  | nil => exact absurd hk (List.not_mem_nil k)
  | cons k0 order ih =>
    rw [rangeVolumes_cons]
    by_cases e : k0 = k
    · subst e
      rw [rangeVolumes_lookup_target order _ _ (volumeName_no_underscore k0)]
      · rw [rangeBody_move m k0 v hv hu,
          Finmap.lookup_erase_ne (volumeName_ne_of_underscore hu), Finmap.lookup_insert]
      · intro k2 hk2 hu2 he
        obtain ⟨hm, hne⟩ := mem_rangeBody_underscore m k0 k2 hu2 hk2
        exact hne (huniq k2 hm hu2 he)
    · have hk1 : k ∈ order := by
        rcases List.mem_cons.mp hk with h | h
        · exact absurd h.symm e
        · exact h
      refine ih _ ?_ hk1 ?_
      · rw [lookup_rangeBody_underscore m k0 k hu (fun h => e h.symm), hv]
      · intro k2 hk2 hu2 he
        exact huniq k2 (mem_rangeBody_underscore m k0 k2 hu2 hk2).1 hu2 he

end charts

/-! ## Properties of `GetChartInMemory` -/

namespace charts

theorem GetChartInMemory_project {V R O C S E : Type} (s : sdk V R O C S E)
    (order : List GoString) (project : types.Project V R) :
    (s.GetChartInMemory order project).project =
      { project with Volumes := rangeVolumes order project.Volumes } := by
  unfold sdk.GetChartInMemory
  dsimp only
  split <;> rfl

theorem GetChartInMemory_calls_head {V R O C S E : Type} (s : sdk V R O C S E)
    (order : List GoString) (project : types.Project V R) :
    (s.GetChartInMemory order project).calls.head? =
      some (Call.MapToKubernetesObjects
        { project with Volumes := rangeVolumes order project.Volumes }) := by
  unfold sdk.GetChartInMemory
  dsimp only
  split <;> rfl

theorem GetChartInMemory_mapper_arg {V R O C S E : Type} (s : sdk V R O C S E)
    (order : List GoString) (project handed : types.Project V R)
    (h : Call.MapToKubernetesObjects handed ∈ (s.GetChartInMemory order project).calls) :
    handed = { project with Volumes := rangeVolumes order project.Volumes } := by
  unfold sdk.GetChartInMemory at h
  dsimp only at h
  split at h <;> simp at h <;> exact h

theorem GetChartInMemory_no_install {V R O C S E : Type} (s : sdk V R O C S E)
    (order : List GoString) (project : types.Project V R) :
    (s.GetChartInMemory order project).calls.filter Call.isInstallChart = [] := by
  unfold sdk.GetChartInMemory
  dsimp only
  split <;> rfl

/-- Every key bound after the loop is the rewritten form of a key bound before it. -/
theorem rangeVolumes_mem_source {V : Type} (order : List GoString) (m : types.Volumes V)
    (hcover : ∀ k ∈ m, k ∈ order) (j : GoString) (hj : j ∈ rangeVolumes order m) :
    ∃ k ∈ m, volumeName k = j := by
  have hclean : '_' ∉ j :=
    rangeVolumes_no_underscore order m (fun k hk _ => hcover k hk) j hj
  by_cases hex : ∃ k ∈ m, '_' ∈ k ∧ volumeName k = j
  · obtain ⟨k, hk, _, he⟩ := hex
    exact ⟨k, hk, he⟩
  · have hl := rangeVolumes_lookup_target order m j hclean
      (fun k hk hu he => hex ⟨k, hk, hu, he⟩)
    refine ⟨j, ?_, (volumeName_eq_self_iff j).mpr hclean⟩
    rw [← Finmap.lookup_isSome, ← hl, Finmap.lookup_isSome]
    exact hj

/-- When no two keys with an underscore are rewritten to the same name, the map the loop
produces does not depend on the order of the visits. -/
theorem rangeVolumes_order_irrelevant {V : Type} (order1 order2 : List GoString)
    (m : types.Volumes V) (h1 : ∀ k ∈ m, k ∈ order1) (h2 : ∀ k ∈ m, k ∈ order2)
    (hsep : ∀ k1 ∈ m, ∀ k2 ∈ m, '_' ∈ k1 → '_' ∈ k2 →
      volumeName k1 = volumeName k2 → k1 = k2) :
    rangeVolumes order1 m = rangeVolumes order2 m := by
  apply Finmap.ext_lookup
  intro j
  by_cases hu : '_' ∈ j
  · have n1 : j ∉ rangeVolumes order1 m := fun h =>
      rangeVolumes_no_underscore order1 m (fun k hk _ => h1 k hk) j h hu
    have n2 : j ∉ rangeVolumes order2 m := fun h =>
      rangeVolumes_no_underscore order2 m (fun k hk _ => h2 k hk) j h hu
    rw [Finmap.lookup_eq_none.mpr n1, Finmap.lookup_eq_none.mpr n2]
  · by_cases hex : ∃ k ∈ m, '_' ∈ k ∧ volumeName k = j
    · obtain ⟨k, hk, hku, rfl⟩ := hex
      obtain ⟨v, hv⟩ := Finmap.mem_iff.mp hk
      have huniq : ∀ k2 ∈ m, '_' ∈ k2 → volumeName k2 = volumeName k → k2 = k :=
        fun k2 hk2 hu2 he => hsep k2 hk2 k hk hu2 hku he
      rw [rangeVolumes_lookup_moved order1 m k v hku hv (h1 k hk) huniq,
        rangeVolumes_lookup_moved order2 m k v hku hv (h2 k hk) huniq]
    · have hno : ∀ k ∈ m, '_' ∈ k → volumeName k ≠ j :=
        fun k hk hku he => hex ⟨k, hk, hku, he⟩
      rw [rangeVolumes_lookup_target order1 m j hu hno,
        rangeVolumes_lookup_target order2 m j hu hno]

/-- C1: when the volume keys of a project stay pairwise distinct after every `_` is
replaced by `-`, the project that `GetChartInMemory` passes to the object mapper binds
exactly the rewritten keys, each to the value its original key had, and no original key
with an underscore is bound any more; this holds for every order of iteration. -/
theorem GetChartInMemory_rewrites_keys {V R O C S E : Type} (s : sdk V R O C S E)
    (order : List GoString) (project : types.Project V R)
    (hcover : ∀ k ∈ project.Volumes.keys, k ∈ order)
    (hinj : ∀ k1 ∈ project.Volumes.keys, ∀ k2 ∈ project.Volumes.keys,
      strings.ReplaceAll k1 ['_'] ['-'] = strings.ReplaceAll k2 ['_'] ['-'] → k1 = k2) :
    ∃ handed : types.Project V R,
      (s.GetChartInMemory order project).calls.head? =
        some (Call.MapToKubernetesObjects handed) ∧
      (∀ j, j ∈ handed.Volumes ↔
        ∃ k ∈ project.Volumes, strings.ReplaceAll k ['_'] ['-'] = j) ∧
      (∀ k ∈ project.Volumes,
        handed.Volumes.lookup (strings.ReplaceAll k ['_'] ['-']) =
          project.Volumes.lookup k) ∧
      (∀ k ∈ project.Volumes, '_' ∈ k → k ∉ handed.Volumes) := by
  have hc : ∀ k ∈ project.Volumes, k ∈ order :=
    fun k hk => hcover k (Finmap.mem_keys.mpr hk)
  have hvals : ∀ k ∈ project.Volumes,
      (rangeVolumes order project.Volumes).lookup (volumeName k) =
        project.Volumes.lookup k := by
    intro k hk
    by_cases hu : '_' ∈ k
    · obtain ⟨v, hv⟩ := Finmap.mem_iff.mp hk
      rw [hv]
      refine rangeVolumes_lookup_moved order _ k v hu hv (hc k hk) ?_
      intro k2 hk2 _ he
      exact hinj k2 (Finmap.mem_keys.mpr hk2) k (Finmap.mem_keys.mpr hk) he
    · have hself : volumeName k = k := (volumeName_eq_self_iff k).mpr hu
      rw [hself]
      refine rangeVolumes_lookup_target order _ k hu ?_
      intro k2 hk2 hu2 he
      have e : k2 = k :=
        hinj k2 (Finmap.mem_keys.mpr hk2) k (Finmap.mem_keys.mpr hk) (he.trans hself.symm)
      exact hu (e ▸ hu2)
  refine ⟨{ project with Volumes := rangeVolumes order project.Volumes },
    GetChartInMemory_calls_head s order project, ?_, hvals, ?_⟩
  · intro j
    constructor
    · exact rangeVolumes_mem_source order project.Volumes hc j
    · rintro ⟨k, hk, rfl⟩
      obtain ⟨v, hv⟩ := Finmap.mem_iff.mp hk
      exact Finmap.mem_of_lookup_eq_some ((hvals k hk).trans hv)
  · intro k _ hu hmem
    exact rangeVolumes_no_underscore order project.Volumes (fun j hj _ => hc j hj) k hmem hu

/-- C1 at project `web` with the volume `data_store`. -/
theorem GetChartInMemory_rewrites_keys_witness :
    ∃ handed : types.Project Nat Unit,
      (okSdk.GetChartInMemory ["data_store".toList] web).calls.head? =
        some (Call.MapToKubernetesObjects handed) ∧
      (∀ j, j ∈ handed.Volumes ↔
        ∃ k ∈ web.Volumes, strings.ReplaceAll k ['_'] ['-'] = j) ∧
      (∀ k ∈ web.Volumes,
        handed.Volumes.lookup (strings.ReplaceAll k ['_'] ['-']) = web.Volumes.lookup k) ∧
      (∀ k ∈ web.Volumes, '_' ∈ k → k ∉ handed.Volumes) :=
  GetChartInMemory_rewrites_keys okSdk ["data_store".toList] web (by decide) (by decide)

/-- C2: the loop is idempotent: run on the map a first run produced, with the keys
visited in any order, it changes nothing. -/
theorem rangeVolumes_idempotent {V : Type} (order1 order2 : List GoString)
    (m : types.Volumes V) (hcover : ∀ k ∈ m.keys, k ∈ order1) :
    rangeVolumes order2 (rangeVolumes order1 m) = rangeVolumes order1 m :=
  rangeVolumes_of_clean order2 _
    (rangeVolumes_no_underscore order1 m (fun k hk _ => hcover k (Finmap.mem_keys.mpr hk)))

/-- C2 at the volumes of `clashing`, the second run visiting the keys in reverse. -/
theorem rangeVolumes_idempotent_witness :
    rangeVolumes ["a-b-c".toList, "a-b_c".toList, "a_b-c".toList]
        (rangeVolumes ["a_b-c".toList, "a-b_c".toList] clashing.Volumes) =
      rangeVolumes ["a_b-c".toList, "a-b_c".toList] clashing.Volumes :=
  rangeVolumes_idempotent _ _ clashing.Volumes (by decide)

/-- C3: after the loop of `GetChartInMemory` no key of `project.Volumes` contains an
underscore, and so no volume name of the project passed to the object mapper does,
whatever the order of iteration and also when keys collide. -/
theorem GetChartInMemory_no_underscore {V R O C S E : Type} (s : sdk V R O C S E)
    (order : List GoString) (project : types.Project V R)
    (hcover : ∀ k ∈ project.Volumes.keys, k ∈ order) :
    (∀ k ∈ (s.GetChartInMemory order project).project.Volumes, '_' ∉ k) ∧
    ∀ handed, Call.MapToKubernetesObjects handed ∈ (s.GetChartInMemory order project).calls →
      ∀ k ∈ handed.Volumes, '_' ∉ k := by
  have hclean := rangeVolumes_no_underscore order project.Volumes
    (fun k hk _ => hcover k (Finmap.mem_keys.mpr hk))
  constructor
  · rw [GetChartInMemory_project]
    exact hclean
  · intro handed hin
    rw [GetChartInMemory_mapper_arg s order project handed hin]
    exact hclean

/-- C3 at the project `clashing`, whose two keys collide. -/
theorem GetChartInMemory_no_underscore_witness :
    (∀ k ∈ (okSdk.GetChartInMemory ["a-b_c".toList, "a_b-c".toList] clashing).project.Volumes,
      '_' ∉ k) ∧
    ∀ handed, Call.MapToKubernetesObjects handed ∈
        (okSdk.GetChartInMemory ["a-b_c".toList, "a_b-c".toList] clashing).calls →
      ∀ k ∈ handed.Volumes, '_' ∉ k :=
  GetChartInMemory_no_underscore okSdk _ clashing (by decide)

/-- C4: when a map binds a key `k` with an underscore and also its rewritten form, and no
third key is rewritten to that name, then after the loop `k` is gone and the rewritten
name holds the value `k` had, in every order of iteration. -/
theorem rangeVolumes_collision {V : Type} (order : List GoString) (m : types.Volumes V)
    (k : GoString) (hu : '_' ∈ k) (hk : k ∈ m)
    (_hk2 : strings.ReplaceAll k ['_'] ['-'] ∈ m)
    (hother : ∀ k2 ∈ m.keys,
      strings.ReplaceAll k2 ['_'] ['-'] = strings.ReplaceAll k ['_'] ['-'] →
        k2 = k ∨ k2 = strings.ReplaceAll k ['_'] ['-'])
    (hcover : ∀ j ∈ m.keys, j ∈ order) :
    k ∉ rangeVolumes order m ∧
    (rangeVolumes order m).lookup (strings.ReplaceAll k ['_'] ['-']) = m.lookup k := by
  have hc : ∀ j ∈ m, j ∈ order := fun j hj => hcover j (Finmap.mem_keys.mpr hj)
  constructor
  · intro hmem
    exact rangeVolumes_no_underscore order m (fun j hj _ => hc j hj) k hmem hu
  · obtain ⟨v, hv⟩ := Finmap.mem_iff.mp hk
    rw [hv]
    refine rangeVolumes_lookup_moved order m k v hu hv (hc k hk) ?_
    intro k2 hm2 hu2 he
    rcases hother k2 (Finmap.mem_keys.mpr hm2) he with e | e
    · exact e
    · rw [e] at hu2
      exact absurd hu2 (volumeName_no_underscore k)

/-- C4 at the volumes of `shadowed`, the rewritten name being visited first. -/
theorem rangeVolumes_collision_witness :
    "a_b".toList ∉ rangeVolumes ["a-b".toList, "a_b".toList] shadowed.Volumes ∧
    (rangeVolumes ["a-b".toList, "a_b".toList] shadowed.Volumes).lookup
        (strings.ReplaceAll "a_b".toList ['_'] ['-']) =
      shadowed.Volumes.lookup "a_b".toList :=
  rangeVolumes_collision ["a-b".toList, "a_b".toList] shadowed.Volumes "a_b".toList
    (by decide) (by decide) (by decide) (by decide) (by decide)

end charts

/-! ## Path derivation -/

namespace filepath

theorem dirEnd_of_no_separator (path : GoString) (h : '/' ∉ path) (n : Nat)
    (hn : n ≤ path.length) : dirEnd path n = 0 := by
  induction n with
  | zero => rfl
  | succ i ih =>
    have hi : i < path.length := hn
    have hne : path.getD i '/' ≠ '/' := by
      rw [List.getD_eq_getElem path '/' hi]
      intro e
      exact h (e ▸ List.getElem_mem hi)
    simp only [dirEnd]
    rw [if_pos hne]
    exact ih (Nat.le_of_lt hi)

/-- A path without separator has the parent directory `.`. -/
theorem Dir_of_no_separator (path : GoString) (h : '/' ∉ path) : Dir path = ['.'] := by
  simp [Dir, dirEnd_of_no_separator path h path.length (Nat.le_refl _), Clean]

end filepath

namespace charts

theorem GenerateChart_dirname_of_period (path : GoString) (h : '.' ∈ path) :
    sdk.GenerateChart.dirname path = filepath.Dir (path.takeWhile (fun c => c ≠ '.')) := by
  unfold sdk.GenerateChart.dirname
  dsimp only
  rw [(strings.Contains_period path).mpr h, if_pos rfl, strings.SplitN_period_head path h]

theorem GenerateChart_dirname_of_no_period (path : GoString) (h : '.' ∉ path) :
    sdk.GenerateChart.dirname path = filepath.Dir path := by
  have hc : strings.Contains path ['.'] = false := by
    cases hb : strings.Contains path ['.'] with
    | false => rfl
    | true => exact absurd ((strings.Contains_period path).mp hb) h
  simp [sdk.GenerateChart.dirname, hc]

/-- C5: `GenerateChart` calls `SaveChart` with the directory derived from the path: for
a path with a period, `filepath.Dir` of the prefix before the first period; for a path
without period, `filepath.Dir` of the path; `out/my.chart.tgz` and `out/charts` both
give `out`. -/
theorem GenerateChart_path_derivation {V R O C S E : Type} (s : sdk V R O C S E)
    (order : List GoString) (project : types.Project V R) (path : GoString) :
    s.GenerateChart order project path =
      s.SaveChart order project (sdk.GenerateChart.dirname path) ∧
    ('.' ∈ path → sdk.GenerateChart.dirname path =
      filepath.Dir (path.takeWhile (fun c => c ≠ '.'))) ∧
    ('.' ∉ path → sdk.GenerateChart.dirname path = filepath.Dir path) ∧
    sdk.GenerateChart.dirname "out/my.chart.tgz".toList = "out".toList ∧
    sdk.GenerateChart.dirname "out/charts".toList = "out".toList :=
  ⟨rfl, GenerateChart_dirname_of_period path, GenerateChart_dirname_of_no_period path,
    by decide, by decide⟩

/-- C5 at the path `out/my.chart.tgz`, whose prefix before the first period is
`out/my`. -/
theorem GenerateChart_path_derivation_witness :
    sdk.GenerateChart.dirname "out/my.chart.tgz".toList = filepath.Dir "out/my".toList :=
  (GenerateChart_path_derivation okSdk [] web "out/my.chart.tgz".toList).2.1 (by decide)

/-- C10: when the first period of the path comes before its first separator, the prefix
before that period has no separator, and `GenerateChart` calls `SaveChart` with the
directory `.`, whatever directories are written after the period. -/
theorem GenerateChart_period_before_separator {V R O C S E : Type} (s : sdk V R O C S E)
    (order : List GoString) (project : types.Project V R) (path : GoString)
    (hperiod : '.' ∈ path) (hfirst : '/' ∉ path.takeWhile (fun c => c ≠ '.')) :
    sdk.GenerateChart.dirname path = ['.'] ∧
    s.GenerateChart order project path = s.SaveChart order project ['.'] := by
  have hd : sdk.GenerateChart.dirname path = ['.'] := by
    rw [GenerateChart_dirname_of_period path hperiod]
    exact filepath.Dir_of_no_separator _ hfirst
  refine ⟨hd, ?_⟩
  unfold sdk.GenerateChart
  rw [hd]

/-- C10 at the path `./out/my.chart.tgz`. -/
theorem GenerateChart_period_before_separator_witness :
    sdk.GenerateChart.dirname "./out/my.chart.tgz".toList = ['.'] ∧
    okSdk.GenerateChart ["data_store".toList] web "./out/my.chart.tgz".toList =
      okSdk.SaveChart ["data_store".toList] web ['.'] :=
  GenerateChart_period_before_separator okSdk ["data_store".toList] web
    "./out/my.chart.tgz".toList (by decide) (by decide)

/-- C6, as the code has it: `SaveChart` passes its destination to the serializer
unchanged: when the assembly returns no error, `SaveChart` makes the calls of
`GetChartInMemory` followed by one call `SaveDir chart dest`, with the `dest` it was
given, and returns what that call returns. -/
theorem SaveChart_dest_verbatim {V R O C S E : Type} (s : sdk V R O C S E)
    (order : List GoString) (project : types.Project V R) (dest : GoString)
    (hok : (s.GetChartInMemory order project).ret.2 = none) :
    (s.SaveChart order project dest).calls =
      (s.GetChartInMemory order project).calls ++
        [Call.SaveDir (s.GetChartInMemory order project).ret.1 dest] ∧
    (s.SaveChart order project dest).ret =
      s.SaveDir (s.GetChartInMemory order project).ret.1 dest ∧
    ∀ chart d, Call.SaveDir chart d ∈ (s.SaveChart order project dest).calls → d = dest := by
  have hcalls : (s.SaveChart order project dest).calls =
      (s.GetChartInMemory order project).calls ++
        [Call.SaveDir (s.GetChartInMemory order project).ret.1 dest] ∧
      (s.SaveChart order project dest).ret =
        s.SaveDir (s.GetChartInMemory order project).ret.1 dest := by
    unfold sdk.SaveChart
    dsimp only
    split
    · rename_i heq
      rw [heq] at hok
      exact absurd hok (by simp)
    · rename_i heq
      rw [heq]
      exact ⟨rfl, rfl⟩
  refine ⟨hcalls.1, hcalls.2, ?_⟩
  intro chart d hin
  rw [hcalls.1] at hin
  rcases List.mem_append.mp hin with hg | hl
  · unfold sdk.GetChartInMemory at hg
    dsimp only at hg
    split at hg <;> simp at hg
  · simp at hl
    exact hl.2

/-- C6 at project `web` and the path `out/my.chart.tgz`. -/
theorem SaveChart_dest_verbatim_witness :
    (okSdk.SaveChart ["data_store".toList] web "out/my.chart.tgz".toList).calls =
      (okSdk.GetChartInMemory ["data_store".toList] web).calls ++
        [Call.SaveDir (okSdk.GetChartInMemory ["data_store".toList] web).ret.1
          "out/my.chart.tgz".toList] ∧
    (okSdk.SaveChart ["data_store".toList] web "out/my.chart.tgz".toList).ret =
      okSdk.SaveDir (okSdk.GetChartInMemory ["data_store".toList] web).ret.1
        "out/my.chart.tgz".toList ∧
    ∀ chart d, Call.SaveDir chart d ∈
        (okSdk.SaveChart ["data_store".toList] web "out/my.chart.tgz".toList).calls →
      d = "out/my.chart.tgz".toList :=
  SaveChart_dest_verbatim okSdk ["data_store".toList] web "out/my.chart.tgz".toList
    (by decide)

/-- C6 as stated fails: for project `web`, whose assembly succeeds, `SaveChart` with the
path `out/my.chart.tgz` calls the serializer with `out/my.chart.tgz`, not with the
directory `out` that the path derivation gives. -/
theorem SaveChart_dest_not_derived :
    (okSdk.GetChartInMemory ["data_store".toList] web).ret.2 = none ∧
    (okSdk.SaveChart ["data_store".toList] web "out/my.chart.tgz".toList).calls.getLast? =
      some (Call.SaveDir (some ("web".toList, Finmap.singleton "data-store".toList 7))
        "out/my.chart.tgz".toList) ∧
    sdk.GenerateChart.dirname "out/my.chart.tgz".toList = "out".toList ∧
    "out/my.chart.tgz".toList ≠ "out".toList := by
  decide

end charts

/-! ## Release operations and determinism -/

namespace charts

/-- The outcome of `GetChartInMemory` depends on the order and on the project only through
the project as the loop leaves it. -/
theorem GetChartInMemory_congr {V R O C S E : Type} (s : sdk V R O C S E)
    (order1 order2 : List GoString) (p1 p2 : types.Project V R)
    (h : ({ p1 with Volumes := rangeVolumes order1 p1.Volumes } : types.Project V R) =
      { p2 with Volumes := rangeVolumes order2 p2.Volumes }) :
    s.GetChartInMemory order1 p1 = s.GetChartInMemory order2 p2 := by
  have hn : p1.Name = p2.Name := by
    have hp := congrArg (fun p => p.Name) h
    exact hp
  unfold sdk.GetChartInMemory
  dsimp only
  rw [h, hn]

/-- C7: `Install` fails fast: when `GetChartInMemory` returns an error, `Install` returns
that error and makes no call of `InstallChart`; when it returns none, `Install` calls
`InstallChart` exactly once, with the name of the project and the assembled chart, and
returns what that call returns. -/
theorem Install_fail_fast {V R O C S E : Type} (s : sdk V R O C S E)
    (order : List GoString) (project : types.Project V R) :
    (∀ e, (s.GetChartInMemory order project).ret.2 = some e →
      (s.Install order project).ret = some e ∧
      (s.Install order project).calls = (s.GetChartInMemory order project).calls ∧
      (s.Install order project).calls.filter Call.isInstallChart = []) ∧
    ((s.GetChartInMemory order project).ret.2 = none →
      (s.Install order project).calls.filter Call.isInstallChart =
        [Call.InstallChart project.Name (s.GetChartInMemory order project).ret.1] ∧
      (s.Install order project).ret =
        s.h.InstallChart project.Name (s.GetChartInMemory order project).ret.1) := by
  have hname : (s.GetChartInMemory order project).project.Name = project.Name := by
    rw [GetChartInMemory_project]
  have hnone := GetChartInMemory_no_install s order project
  constructor
  · intro e he
    unfold sdk.Install
    dsimp only
    split
    · rename_i heq
      rw [heq] at he
      simp only [Option.some.injEq] at he
      subst he
      exact ⟨rfl, rfl, hnone⟩
    · rename_i heq
      rw [heq] at he
      exact absurd he (by simp)
  · intro hok
    unfold sdk.Install
    dsimp only
    split
    · rename_i heq
      rw [heq] at hok
      exact absurd hok (by simp)
    · rename_i heq
      rw [heq]
      refine ⟨?_, ?_⟩
      · show List.filter _ (_ ++ _) = _
        rw [List.filter_append, hnone, hname]
        rfl
      · show s.h.InstallChart _ _ = _
        rw [hname]

/-- C7 at project `web`, with an object mapper that rejects it with error `22`. -/
theorem Install_fail_fast_witness :
    (rejectingSdk.Install ["data_store".toList] web).ret = some 22 ∧
    (rejectingSdk.Install ["data_store".toList] web).calls =
      (rejectingSdk.GetChartInMemory ["data_store".toList] web).calls ∧
    (rejectingSdk.Install ["data_store".toList] web).calls.filter Call.isInstallChart = [] :=
  (Install_fail_fast rejectingSdk ["data_store".toList] web).1 22 (by decide)

/-- C8: `List` does not filter: whatever `projectName` is, it makes the one call
`ListReleases` and returns the stacks and the error that call returns, so two project
names give the same result. -/
theorem List_never_filters {V R O C S E : Type} (s : sdk V R O C S E)
    (projectName other : GoString) :
    (s.List projectName).1 = ([Call.ListReleases] : List (Call V R O C)) ∧
    (s.List projectName).2 = s.h.ListReleases ∧
    (∀ stack ∈ s.h.ListReleases.1, stack ∈ (s.List projectName).2.1) ∧
    s.List projectName = s.List other :=
  ⟨rfl, rfl, fun _ h => h, rfl⟩

/-- C9 as stated fails: the two volumes of `clashing` are both rewritten to `a-b-c`;
visiting `a_b-c` first leaves the value `2` under that name, visiting `a-b_c` first
leaves `1`, and the chart of the deterministic `okSdk` differs. -/
theorem GetChartInMemory_order_dependent :
    (∀ k ∈ clashing.Volumes.keys, k ∈ ["a_b-c".toList, "a-b_c".toList]) ∧
    (∀ k ∈ clashing.Volumes.keys, k ∈ ["a-b_c".toList, "a_b-c".toList]) ∧
    (okSdk.GetChartInMemory ["a_b-c".toList, "a-b_c".toList] clashing).ret =
      (some ("web".toList, Finmap.singleton "a-b-c".toList 2), none) ∧
    (okSdk.GetChartInMemory ["a-b_c".toList, "a_b-c".toList] clashing).ret =
      (some ("web".toList, Finmap.singleton "a-b-c".toList 1), none) ∧
    (okSdk.GetChartInMemory ["a_b-c".toList, "a-b_c".toList] clashing).ret ≠
      (okSdk.GetChartInMemory ["a-b_c".toList, "a_b-c".toList] clashing).ret :=
  ⟨by decide, by decide, by decide, by decide, by decide⟩

/-- C9, as the code has it: a call of `GetChartInMemory` on the project as an earlier
call left it has the same outcome as that call; and when no two keys with an underscore
are rewritten to the same name, the outcome on a project is the same for every order of
iteration. -/
theorem GetChartInMemory_deterministic {V R O C S E : Type} (s : sdk V R O C S E)
    (order1 order2 : List GoString) (project : types.Project V R)
    (hcover : ∀ k ∈ project.Volumes.keys, k ∈ order1) :
    s.GetChartInMemory order2 (s.GetChartInMemory order1 project).project =
      s.GetChartInMemory order1 project ∧
    ((∀ k ∈ project.Volumes.keys, k ∈ order2) →
      (∀ k1 ∈ project.Volumes.keys, ∀ k2 ∈ project.Volumes.keys, '_' ∈ k1 → '_' ∈ k2 →
        strings.ReplaceAll k1 ['_'] ['-'] = strings.ReplaceAll k2 ['_'] ['-'] → k1 = k2) →
      s.GetChartInMemory order1 project = s.GetChartInMemory order2 project) := by
  have hc : ∀ k ∈ project.Volumes, k ∈ order1 :=
    fun k hk => hcover k (Finmap.mem_keys.mpr hk)
  constructor
  · apply GetChartInMemory_congr
    rw [GetChartInMemory_project]
    dsimp only
    rw [rangeVolumes_of_clean order2 _
      (rangeVolumes_no_underscore order1 project.Volumes (fun k hk _ => hc k hk))]
  · intro hcover2 hsep
    apply GetChartInMemory_congr
    rw [rangeVolumes_order_irrelevant order1 order2 project.Volumes hc
      (fun k hk => hcover2 k (Finmap.mem_keys.mpr hk))
      (fun k1 h1 k2 h2 => hsep k1 (Finmap.mem_keys.mpr h1) k2 (Finmap.mem_keys.mpr h2))]

/-- C9 at the project `clashing`: a second call, on the project the first call left, has
the outcome of the first. -/
theorem GetChartInMemory_deterministic_witness :
    okSdk.GetChartInMemory ["a-b-c".toList]
        (okSdk.GetChartInMemory ["a_b-c".toList, "a-b_c".toList] clashing).project =
      okSdk.GetChartInMemory ["a_b-c".toList, "a-b_c".toList] clashing :=
  (GetChartInMemory_deterministic okSdk ["a_b-c".toList, "a-b_c".toList]
    ["a-b-c".toList] clashing (by decide)).1

end charts

/-! ## The loop of `Clean` ends within `path.length` turns -/

namespace filepath

theorem element_length_pos (path : GoString) (r : Nat) (hr : r < path.length)
    (hne : ¬ path.getD r '/' = '/') :
    0 < ((path.drop r).takeWhile (fun c => c ≠ '/')).length := by
  rw [List.getD_eq_getElem path '/' hr] at hne
  rw [List.drop_eq_getElem_cons hr, List.takeWhile_cons]
  simp [hne]

/-- One more turn than `path.length - r` changes nothing: the loop of `Clean` has ended
by then. -/
theorem cleanLoop_fuel (path : GoString) (rooted : Bool) (fuel : Nat) :
    ∀ (r : Nat) (buf : GoString) (dotdot : Nat), path.length ≤ r + fuel →
      cleanLoop path rooted (fuel + 1) r buf dotdot = cleanLoop path rooted fuel r buf dotdot := by
  induction fuel with
  | zero =>
    intro r buf dotdot h
    have hr : ¬ r < path.length := by omega
    simp [cleanLoop, hr]
  | succ f ih =>
    intro r buf dotdot h
    conv_lhs => rw [cleanLoop]
    conv_rhs => rw [cleanLoop]
    by_cases hr : r < path.length
    · have hpos := element_length_pos path r hr
      simp only [hr, if_true]
      by_cases h1 : path.getD r '/' = '/'
      · simp only [h1, if_true]
        exact ih _ _ _ (by omega)
      · have hp := hpos h1
        simp only [h1, if_false]
        split_ifs <;> exact ih _ _ _ (by omega)
    · simp only [hr, if_false]

/-- Any number of turns beyond `path.length - r` gives the result of `path.length - r`
turns. -/
theorem cleanLoop_fuel_add (path : GoString) (rooted : Bool) (fuel extra r : Nat)
    (buf : GoString) (dotdot : Nat) (h : path.length ≤ r + fuel) :
    cleanLoop path rooted (fuel + extra) r buf dotdot =
      cleanLoop path rooted fuel r buf dotdot := by
  induction extra with
  | zero => rfl
  | succ k ih =>
    rw [← Nat.add_assoc, cleanLoop_fuel path rooted (fuel + k) r buf dotdot (by omega), ih]

end filepath
